import Mathlib

/-!
# Verification of the voice-NLP shopping system

A shallow embedding of the core data model and operations of the
voice-shopping repository (React/TypeScript frontend under
`frontend/src`, FastAPI backend described by the repository's README and
CLAUDE.md).  Frontend functions are translated directly from the
TypeScript source.  Backend components (`backend/nlp/pipeline.py`,
`backend/services/list_manager.py`, `backend/recommendations/engine.py`,
the catalog validator) are not part of the frontend tree; where a claim
depends on them the definition is modelled from the specification text
and carries a doc comment saying so.

JavaScript numbers are modelled as `ℚ` where they carry fractional
values (prices, confidences) and as `ℕ` where the program treats them as
non-negative integers (ids, quantities, counts).
-/

set_option linter.unusedVariables false

namespace VoiceShop

/-- Split a character list at whitespace characters (structural version
of `s.split isWhitespace`; empty segments are kept and filtered by the
caller). -/
def splitOnWs : List Char → List (List Char)
  | [] => [[]]
  | c :: cs =>
    let r := splitOnWs cs
    if c.isWhitespace then [] :: r
    else
      match r with
      | [] => [[c]]
      | w :: ws => (c :: w) :: ws

/-- Join words with single spaces (structural version of
`" ".intercalate`). -/
def joinWords : List (List Char) → List Char
  | [] => []
  | [w] => w
  | w :: ws => w ++ ' ' :: joinWords ws

/-- Normalized catalog key: lower-cased, whitespace collapsed to single
spaces, trimmed (spec §3: "lower-cased, whitespace-normalized lookup
key"). -/
def normKey (s : String) : String :=
  ⟨joinWords ((splitOnWs (s.data.map Char.toLower)).filter (fun w => w ≠ []))⟩

/-! ## Domain types, from `frontend/src/types/index.ts` -/

/-- Model of `added_via` field of `ListItem` (`types/index.ts`). -/
inductive AddedVia where
  | voice
  | manual
  | suggestion
  deriving DecidableEq, Repr

/-- Model of `ListItem` from `types/index.ts`. -/
structure ListItem where
  id : Nat
  item_name : String
  quantity : Nat
  unit : String
  category : String
  is_checked : Bool
  added_via : AddedVia
  deriving DecidableEq, Repr

/-- Model of `CategoryGroup` from `types/index.ts`. -/
structure CategoryGroup where
  category : String
  items : List ListItem
  count : Nat
  deriving DecidableEq, Repr

/-- Model of `ShoppingList` from `types/index.ts`. -/
structure ShoppingList where
  id : Nat
  name : String
  categories : List CategoryGroup
  total_items : Nat
  checked_items : Nat
  deriving DecidableEq, Repr

/-- Model of `Product` from `types/index.ts`. -/
structure Product where
  name : String
  name_lower : String
  category : String
  common_units : List String
  avg_price : Option ℚ
  is_seasonal : Bool
  order_count : Nat
  deriving DecidableEq, Repr

/-- Model of `ReorderItem` from `types/index.ts`. -/
structure ReorderItem where
  name : String
  reason : String
  deriving DecidableEq, Repr

/-- Model of `CategoryMeta` from `types/index.ts`. -/
structure CategoryMeta where
  name : String
  count : Nat
  deriving DecidableEq, Repr

/-- Model of `HomePageData` from `types/index.ts`. -/
structure HomePageData where
  seasonal : List Product
  popular : List Product
  reorder : List ReorderItem
  categories : List CategoryMeta
  deriving DecidableEq, Repr

/-- The `method` tag of `ParsedCommand` (`types/index.ts`):
`"spacy"` is the fast path, `"llm_fallback"` the fallback path.  The
spec names the same two values `fast` and `fallback`. -/
inductive Method where
  | spacy
  | llm_fallback
  deriving DecidableEq, Repr

/-- Model of `ParsedCommand` from `types/index.ts`. -/
structure ParsedCommand where
  intent : String
  item : Option String
  quantity : Option ℚ
  unit : Option String
  category : Option String
  brand : Option String
  price_max : Option ℚ
  confidence : ℚ
  method : Method
  deriving DecidableEq, Repr

/-- Model of `status` field of `ActionResult` (`types/index.ts`). -/
inductive ActionStatus where
  | success
  | error
  | no_change
  deriving DecidableEq, Repr

/-- Model of `ActionResult` from `types/index.ts`. -/
structure ActionResult where
  status : ActionStatus
  message : Option String
  deriving DecidableEq, Repr

/-- Model of `SuggestionItem` from `types/index.ts`. -/
structure SuggestionItem where
  name : String
  reason : Option String
  deriving DecidableEq, Repr

/-- Model of `Suggestions` from `types/index.ts`. -/
structure Suggestions where
  co_purchase : List SuggestionItem
  substitutes : List SuggestionItem
  seasonal : List SuggestionItem
  reorder : List ReorderItem
  deriving DecidableEq, Repr

/-- Model of `VoiceCommandResponse` from `types/index.ts`; the `latency`
record is modelled as an association list. -/
structure VoiceCommandResponse where
  transcript : String
  parsed : ParsedCommand
  action_result : ActionResult
  updated_list : ShoppingList
  suggestions : Option Suggestions
  latency : List (String × ℚ)
  deriving DecidableEq, Repr

/-- Model of `VoiceState` from `types/index.ts`. -/
inductive VoiceState where
  | idle
  | listening
  | processing
  | confirmed
  | error
  deriving DecidableEq, Repr

/-- Toast flavour (`types/index.ts`). -/
inductive ToastType where
  | success
  | error
  | info
  deriving DecidableEq, Repr

/-- Model of `Toast` from `types/index.ts`. -/
structure Toast where
  message : String
  type : ToastType
  deriving DecidableEq, Repr

/-- The `productSuggestions` payload of `AppState` (`types/index.ts`). -/
structure ProductSuggestions where
  co_purchase : List String
  substitutes : List String
  deriving DecidableEq, Repr

/-- Model of `AppState` from `types/index.ts`. -/
structure AppState where
  voiceState : VoiceState
  interimTranscript : String
  voiceResult : Option VoiceCommandResponse
  isVoiceOverlayOpen : Bool
  currentList : Option ShoppingList
  isListLoading : Bool
  homeData : Option HomePageData
  isHomeLoading : Bool
  selectedProduct : Option Product
  productSuggestions : Option ProductSuggestions
  isProductSheetOpen : Bool
  language : String
  ttsEnabled : Bool
  toast : Option Toast
  deriving DecidableEq, Repr

/-- Model of `AppAction` from `types/index.ts`.  At runtime a dispatched action is
a plain object whose `type` string may match none of the fourteen known
tags; the reducer's `default` branch handles that case, modelled by the
extra constructor `otherAction`. -/
inductive AppAction where
  | setVoiceState (payload : VoiceState)
  | setInterimTranscript (payload : String)
  | setVoiceResult (payload : Option VoiceCommandResponse)
  | setVoiceOverlay (payload : Bool)
  | setList (payload : Option ShoppingList)
  | setListLoading (payload : Bool)
  | setHomeData (payload : Option HomePageData)
  | setHomeLoading (payload : Bool)
  | setSelectedProduct (payload : Option Product)
  | setProductSuggestions (payload : Option ProductSuggestions)
  | setProductSheet (payload : Bool)
  | setLanguage (payload : String)
  | setTtsEnabled (payload : Bool)
  | setToast (payload : Option Toast)
  | otherAction (ty : String)

/-- Model of `appReducer` from `frontend/src/App.tsx` lines 35–68: each case
replaces one field of the state with the action's payload; the `default`
branch returns the state unchanged. -/
def appReducer (state : AppState) (action : AppAction) : AppState :=
  match action with
  | .setVoiceState p => { state with voiceState := p }
  | .setInterimTranscript p => { state with interimTranscript := p }
  | .setVoiceResult p => { state with voiceResult := p }
  | .setVoiceOverlay p => { state with isVoiceOverlayOpen := p }
  | .setList p => { state with currentList := p }
  | .setListLoading p => { state with isListLoading := p }
  | .setHomeData p => { state with homeData := p }
  | .setHomeLoading p => { state with isHomeLoading := p }
  | .setSelectedProduct p => { state with selectedProduct := p }
  | .setProductSuggestions p => { state with productSuggestions := p }
  | .setProductSheet p => { state with isProductSheetOpen := p }
  | .setLanguage p => { state with language := p }
  | .setTtsEnabled p => { state with ttsEnabled := p }
  | .setToast p => { state with toast := p }
  | .otherAction _ => state

/-- C8: `appReducer` replaces exactly the field designated by the
action's type with the action's payload (a structure-update `{ s with
field := payload }` leaves every other field untouched), and returns the
state unchanged on an unrecognized action type. -/
theorem appReducer_frame (s : AppState) :
    (∀ p, appReducer s (.setVoiceState p) = { s with voiceState := p }) ∧
    (∀ p, appReducer s (.setInterimTranscript p) = { s with interimTranscript := p }) ∧
    (∀ p, appReducer s (.setVoiceResult p) = { s with voiceResult := p }) ∧
    (∀ p, appReducer s (.setVoiceOverlay p) = { s with isVoiceOverlayOpen := p }) ∧
    (∀ p, appReducer s (.setList p) = { s with currentList := p }) ∧
    (∀ p, appReducer s (.setListLoading p) = { s with isListLoading := p }) ∧
    (∀ p, appReducer s (.setHomeData p) = { s with homeData := p }) ∧
    (∀ p, appReducer s (.setHomeLoading p) = { s with isHomeLoading := p }) ∧
    (∀ p, appReducer s (.setSelectedProduct p) = { s with selectedProduct := p }) ∧
    (∀ p, appReducer s (.setProductSuggestions p) = { s with productSuggestions := p }) ∧
    (∀ p, appReducer s (.setProductSheet p) = { s with isProductSheetOpen := p }) ∧
    (∀ p, appReducer s (.setLanguage p) = { s with language := p }) ∧
    (∀ p, appReducer s (.setTtsEnabled p) = { s with ttsEnabled := p }) ∧
    (∀ p, appReducer s (.setToast p) = { s with toast := p }) ∧
    (∀ ty, appReducer s (.otherAction ty) = s) :=
  ⟨fun _ => rfl, fun _ => rfl, fun _ => rfl, fun _ => rfl, fun _ => rfl,
   fun _ => rfl, fun _ => rfl, fun _ => rfl, fun _ => rfl, fun _ => rfl,
   fun _ => rfl, fun _ => rfl, fun _ => rfl, fun _ => rfl, fun _ => rfl⟩

/-! ## Stored list id (`frontend/src/hooks/useVoiceAssistant.ts`)

The browser `localStorage` slot for the key `"vsa_list_id"` is modelled
as an `Option String` (missing value = `none`).  `String(id)` and
`parseInt(raw, 10)` are modelled by an executable decimal printer and a
JavaScript-faithful decimal parser (leading whitespace skipped, optional
sign, longest digit run, `NaN` — modelled as `none` — when no digit
follows). -/

/-- The ten decimal digit characters. -/
def decDigits : List Char := ['0', '1', '2', '3', '4', '5', '6', '7', '8', '9']

/-- Decimal digit character for `n % 10`-style values. -/
def digitChar : Nat → Char
  | 0 => '0'
  | 1 => '1'
  | 2 => '2'
  | 3 => '3'
  | 4 => '4'
  | 5 => '5'
  | 6 => '6'
  | 7 => '7'
  | 8 => '8'
  | _ => '9'

/-- Numeric value of a decimal digit character, `none` for any other
character. -/
def charDigitVal (c : Char) : Option Nat :=
  if '0' ≤ c ∧ c ≤ '9' then some (c.toNat - 48) else none

/-- Decimal representation of a natural number as a character list
(most significant digit first), the format `String(n)` produces in
JavaScript for a non-negative integer. -/
def natDecChars (n : Nat) : List Char :=
  if h : n < 10 then [digitChar n]
  else natDecChars (n / 10) ++ [digitChar (n % 10)]
  termination_by n
  decreasing_by exact Nat.div_lt_self (by omega) (by omega)

/-- Model of `String(i)` for an integer `i`: decimal digits with a leading `-`
for negative values. -/
def jsStringOfInt : Int → String
  | .ofNat n => ⟨natDecChars n⟩
  | .negSucc m => ⟨'-' :: natDecChars (m + 1)⟩

/-- Accumulating digit scan of `parseInt`: consume decimal digits,
stopping at the first non-digit. -/
def digitsLoop : Nat → List Char → Nat
  | acc, [] => acc
  | acc, c :: cs =>
    match charDigitVal c with
    | some d => digitsLoop (acc * 10 + d) cs
    | none => acc

/-- Longest decimal-digit run at the front of the character list;
`none` when the first character is not a digit (the `NaN` case of
`parseInt`). -/
def parseDigitRun : List Char → Option Nat
  | [] => none
  | c :: cs =>
    match charDigitVal c with
    | some d => some (digitsLoop d cs)
    | none => none

/-- Model of `parseInt(·, 10)` after leading whitespace has been dropped:
an optional sign followed by at least one decimal digit. -/
def jsParseIntChars : List Char → Option Int
  | [] => none
  | c :: cs =>
    if c = '-' then (parseDigitRun cs).map (fun d => -(Int.ofNat d))
    else if c = '+' then (parseDigitRun cs).map Int.ofNat
    else (parseDigitRun (c :: cs)).map Int.ofNat

/-- Model of `parseInt(s, 10)` of JavaScript restricted to radix 10: skip leading
whitespace, optional sign, longest digit run, `none` for `NaN`. -/
def jsParseInt (s : String) : Option Int :=
  jsParseIntChars (s.toList.dropWhile (fun c => c.isWhitespace))

/-- Model of `getStoredListId` from `frontend/src/hooks/useVoiceAssistant.ts`
lines 18–23: missing value or empty string (`!raw`) gives `null`;
otherwise `parseInt(raw, 10)`, with `NaN` mapped to `null`. -/
def getStoredListId (stored : Option String) : Option Int :=
  match stored with
  | none => none
  | some raw => if raw = "" then none else jsParseInt raw

/-- Model of `setStoredListId` from `frontend/src/hooks/useVoiceAssistant.ts`
lines 25–27: stores `String(id)` in the slot. -/
def setStoredListId (i : Int) : Option String :=
  some (jsStringOfInt i)

theorem charDigitVal_digitChar {n : Nat} (h : n < 10) :
    charDigitVal (digitChar n) = some n := by
  interval_cases n <;> decide

theorem digitChar_mem_decDigits (n : Nat) : digitChar n ∈ decDigits := by
  rcases n with _ | _ | _ | _ | _ | _ | _ | _ | _ | n <;> simp [digitChar, decDigits]

theorem decDigits_spec :
    ∀ c ∈ decDigits, (charDigitVal c).isSome ∧ c.isWhitespace = false ∧ c ≠ '-' ∧ c ≠ '+' := by
  decide

theorem natDecChars_mem_decDigits (n : Nat) : ∀ c ∈ natDecChars n, c ∈ decDigits := by
  induction n using Nat.strong_induction_on with
  | _ n ih =>
    rw [natDecChars]
    split
    · intro c hc
      rw [List.mem_singleton] at hc
      exact hc ▸ digitChar_mem_decDigits n
    · intro c hc
      rcases List.mem_append.mp hc with h1 | h2
      · exact ih (n / 10) (Nat.div_lt_self (by omega) (by omega)) c h1
      · rw [List.mem_singleton] at h2
        exact h2 ▸ digitChar_mem_decDigits (n % 10)

theorem natDecChars_ne_nil (n : Nat) : natDecChars n ≠ [] := by
  rw [natDecChars]
  split
  · simp
  · simp

theorem digitsLoop_append (l rest : List Char) (acc : Nat)
    (h : ∀ c ∈ l, (charDigitVal c).isSome) :
    digitsLoop acc (l ++ rest) = digitsLoop (digitsLoop acc l) rest := by
  induction l generalizing acc with
  | nil => simp [digitsLoop]
  | cons c cs ih =>
    obtain ⟨d, hd⟩ := Option.isSome_iff_exists.mp (h c (by simp))
    rw [List.cons_append]
    simp only [digitsLoop, hd]
    exact ih _ (fun x hx => h x (by simp [hx]))

theorem digitsLoop_natDecChars (n : Nat) :
    ∀ acc, digitsLoop acc (natDecChars n) = acc * 10 ^ (natDecChars n).length + n := by
  induction n using Nat.strong_induction_on with
  | _ n ih =>
    intro acc
    rw [natDecChars]
    split
    · rename_i h
      simp only [digitsLoop, charDigitVal_digitChar h, List.length_singleton, pow_one]
    · rename_i h
      have hdiv : n / 10 < n := Nat.div_lt_self (by omega) (by omega)
      have hdigits : ∀ c ∈ natDecChars (n / 10), (charDigitVal c).isSome :=
        fun c hc => (decDigits_spec c (natDecChars_mem_decDigits (n / 10) c hc)).1
      rw [digitsLoop_append _ _ _ hdigits, ih (n / 10) hdiv acc]
      simp only [digitsLoop, charDigitVal_digitChar (Nat.mod_lt n (by omega)),
        List.length_append, List.length_singleton]
      calc (acc * 10 ^ (natDecChars (n / 10)).length + n / 10) * 10 + n % 10
          = acc * 10 ^ ((natDecChars (n / 10)).length + 1) + (10 * (n / 10) + n % 10) := by
            ring
        _ = acc * 10 ^ ((natDecChars (n / 10)).length + 1) + n := by
            rw [Nat.div_add_mod]

theorem parseDigitRun_natDecChars (n : Nat) :
    parseDigitRun (natDecChars n) = some n := by
  rcases hl : natDecChars n with _ | ⟨c, cs⟩
  · exact absurd hl (natDecChars_ne_nil n)
  · have hc : c ∈ decDigits := natDecChars_mem_decDigits n c (by rw [hl]; simp)
    obtain ⟨d, hd⟩ := Option.isSome_iff_exists.mp (decDigits_spec c hc).1
    have hloop : digitsLoop 0 (natDecChars n) = n := by
      have := digitsLoop_natDecChars n 0
      simpa using this
    rw [hl] at hloop
    simp only [digitsLoop, hd, Nat.zero_mul, Nat.zero_add] at hloop
    simp only [parseDigitRun, hd, hloop]

theorem dropWhile_natDecChars (n : Nat) :
    List.dropWhile (fun c => c.isWhitespace) (natDecChars n) = natDecChars n := by
  rcases hl : natDecChars n with _ | ⟨c, cs⟩
  · rfl
  · have hc : c ∈ decDigits := natDecChars_mem_decDigits n c (by rw [hl]; simp)
    rw [List.dropWhile_cons, if_neg]
    simp [(decDigits_spec c hc).2.1]

theorem jsParseIntChars_natDecChars (n : Nat) :
    jsParseIntChars (natDecChars n) = some (Int.ofNat n) := by
  rcases hl : natDecChars n with _ | ⟨c, cs⟩
  · exact absurd hl (natDecChars_ne_nil n)
  · have hc : c ∈ decDigits := natDecChars_mem_decDigits n c (by rw [hl]; simp)
    simp only [jsParseIntChars, if_neg (decDigits_spec c hc).2.2.1,
      if_neg (decDigits_spec c hc).2.2.2]
    rw [← hl, parseDigitRun_natDecChars n]
    rfl

/-- C9: storing an integer list id and reading it back returns exactly
that id; a missing or unparsable stored value reads back as `null`
rather than throwing (`getStoredListId`/`setStoredListId`,
`frontend/src/hooks/useVoiceAssistant.ts` lines 16–27). -/
theorem storedListId_roundtrip :
    (∀ i : Int, getStoredListId (setStoredListId i) = some i) ∧
    getStoredListId none = none ∧
    (∀ raw : String, jsParseInt raw = none → getStoredListId (some raw) = none) := by
  refine ⟨?_, rfl, ?_⟩
  · intro i
    cases i with
    | ofNat n =>
      have hne : (⟨natDecChars n⟩ : String) ≠ "" := by
        intro hcontra
        exact natDecChars_ne_nil n (congrArg String.data hcontra)
      have hthis : (⟨natDecChars n⟩ : String).toList = natDecChars n := rfl
      simp only [setStoredListId, getStoredListId, jsStringOfInt, if_neg hne,
        jsParseInt, hthis, dropWhile_natDecChars n, jsParseIntChars_natDecChars n]
    | negSucc m =>
      have hne : (⟨'-' :: natDecChars (m + 1)⟩ : String) ≠ "" := by
        intro hcontra
        exact List.cons_ne_nil _ _ (congrArg String.data hcontra)
      have hthis : (⟨'-' :: natDecChars (m + 1)⟩ : String).toList
          = '-' :: natDecChars (m + 1) := rfl
      simp only [setStoredListId, getStoredListId, jsStringOfInt, if_neg hne,
        jsParseInt, hthis, List.dropWhile_cons, if_neg (by decide : ¬('-'.isWhitespace = true)),
        jsParseIntChars, parseDigitRun_natDecChars (m + 1)]
      simp only [if_true, Option.map_some', Option.some.injEq]
      rfl
  · intro raw h
    by_cases hraw : raw = "" <;> simp [getStoredListId, hraw, h]

/-- C9 witness: concrete round trip at id 42 and `null` on the
unparsable stored value `"abc"`. -/
theorem storedListId_roundtrip_witness :
    getStoredListId (setStoredListId 42) = some 42 ∧
    getStoredListId (some "abc") = none :=
  ⟨storedListId_roundtrip.1 42,
   storedListId_roundtrip.2.2 "abc" (by decide)⟩

/-! ## Preferences service (`frontend/src/services/preferences.ts`)

The `localStorage` slot for `"vsa_prefs"` is modelled as an
`Option String`; `JSON.parse` (which can throw, caught by the `try`
block) is modelled as a function returning `Option PrefsMap`.  A
`PrefsMap` record object is modelled as an association list. -/

/-- Model of `PrefEntry` from `frontend/src/services/preferences.ts`. -/
structure PrefEntry where
  count : Nat
  category : String
  lastOrdered : Nat
  deriving DecidableEq, Repr

/-- Model of `PrefsMap = Record<string, PrefEntry>` as an association list. -/
def PrefsMap : Type := List (String × PrefEntry)

/-- Model of `getPrefs` from `preferences.ts` lines 20–27: missing or empty
stored value gives the empty map; a `JSON.parse` failure is caught and
gives the empty map. -/
def getPrefs (stored : Option String) (parseJson : String → Option PrefsMap) : PrefsMap :=
  match stored with
  | none => []
  | some raw =>
    if raw = "" then []
    else
      match parseJson raw with
      | some m => m
      | none => []

/-- The sort comparator `(a, b) => b[1].count - a[1].count` of
`getFrequentItems`: entry `a` precedes entry `b` when `a`'s count is at
least `b`'s (descending by purchase count). -/
def prefCountLe (a b : String × PrefEntry) : Bool :=
  decide (b.2.count ≤ a.2.count)

/-- The sorted-and-truncated entry list of `getFrequentItems`
(`Object.entries(prefs).sort(...).slice(0, limit)`). -/
def frequentEntries (prefs : PrefsMap) (limit : Nat) : List (String × PrefEntry) :=
  (List.mergeSort prefs prefCountLe).take limit

/-- Model of `getFrequentItems` from `preferences.ts` lines 46–52: entries sorted
by descending purchase count, truncated to `limit`, mapped to names. -/
def getFrequentItems (prefs : PrefsMap) (limit : Nat) : List String :=
  (frequentEntries prefs limit).map (fun e => e.1)

/-- C10: `getFrequentItems` returns at most `limit` names, taken from
entries ordered by non-increasing purchase count, and `getPrefs` returns
the empty map (without throwing) when the stored value is missing or
fails to parse as JSON. -/
theorem getFrequentItems_spec (prefs : PrefsMap) (limit : Nat)
    (parseJson : String → Option PrefsMap) (raw : String) :
    (getFrequentItems prefs limit).length ≤ limit ∧
    getFrequentItems prefs limit = (frequentEntries prefs limit).map (fun e => e.1) ∧
    ((frequentEntries prefs limit).map (fun e => e.2.count)).Pairwise (fun a b => b ≤ a) ∧
    getPrefs none parseJson = [] ∧
    (parseJson raw = none → getPrefs (some raw) parseJson = []) := by
  refine ⟨?_, rfl, ?_, rfl, ?_⟩
  · rw [getFrequentItems, List.length_map, frequentEntries, List.length_take]
    exact Nat.min_le_left _ _
  · have htrans : ∀ a b c, prefCountLe a b → prefCountLe b c → prefCountLe a c := by
      intro a b c hab hbc
      simp only [prefCountLe, decide_eq_true_eq] at *
      omega
    have htotal : ∀ a b, prefCountLe a b || prefCountLe b a := by
      intro a b
      simp only [prefCountLe, Bool.or_eq_true, decide_eq_true_eq]
      omega
    have hsorted := List.sorted_mergeSort htrans htotal prefs
    have htake : (frequentEntries prefs limit).Pairwise
        (fun a b => prefCountLe a b = true) :=
      hsorted.sublist (List.take_sublist limit _)
    rw [List.pairwise_map]
    exact htake.imp (fun h => by
      simpa [prefCountLe, decide_eq_true_eq] using h)
  · intro h
    by_cases hraw : raw = "" <;> simp [getPrefs, hraw, h]

/-- Concrete preference map for the C10 witness. -/
def prefsEx : PrefsMap :=
  [("milk", ⟨3, "dairy", 0⟩), ("bread", ⟨5, "bakery", 0⟩), ("eggs", ⟨1, "dairy", 0⟩)]

/-- C10 witness: concrete bound at limit 2 and the caught parse
failure. -/
theorem getFrequentItems_spec_witness :
    (getFrequentItems prefsEx 2).length ≤ 2 ∧
    getPrefs (some "oops") (fun _ => none) = [] :=
  ⟨(getFrequentItems_spec prefsEx 2 (fun _ => none) "oops").1,
   (getFrequentItems_spec prefsEx 2 (fun _ => none) "oops").2.2.2.2 rfl⟩

/-! ## List operations

The backend's list aggregate is the `list_items` table of one shopping
list, modelled as a flat `List ListItem` (the grouped `ShoppingList`
response is derived presentation).  `backend/services/list_manager.py`
is not part of the frontend source tree, so its operations are modelled
from the spec (§4.3); the frontend stepper handlers are translated from
`frontend/src/components/list/ListItem.tsx` and
`frontend/src/hooks/useShoppingList.ts`. -/

/-- Does a list entry carry the same normalized item-name key as `name`
(the duplicate test over the `list_items(item_name_lower)` index)? -/
def keyMatchB (name : String) (it : ListItem) : Bool :=
  normKey it.item_name == normKey name

/-- Number of list entries whose normalized item-name key is `k`. -/
def keyCount (k : String) (l : List ListItem) : Nat :=
  l.countP (fun it => normKey it.item_name == k)

/-- Modelled from the spec: `add_item` of the List Action Executor
(§4.3, `backend/services/list_manager.py`, absent from the source
tree).  "If an item with the same `itemNameKey` already exists,
increment its quantity by the parsed quantity … and merge unit if the
existing unit is absent; else create a new entry."  The first existing
entry with the key is incremented; a fresh entry is appended with the
database-assigned `freshId`. -/
def addListItem (l : List ListItem) (freshId : Nat) (name : String) (qty : Nat)
    (unit category : String) (via : AddedVia) : List ListItem :=
  match l with
  | [] => [⟨freshId, name, qty, unit, category, false, via⟩]
  | it :: rest =>
    if keyMatchB name it then
      { it with quantity := it.quantity + qty,
                unit := if it.unit = "" then unit else it.unit } :: rest
    else it :: addListItem rest freshId name qty unit category via

/-- One pending add request (arguments of a single `add_item` call). -/
structure AddReq where
  freshId : Nat
  item_name : String
  quantity : Nat
  unit : String
  category : String
  added_via : AddedVia

/-- A sequence of adds applied in order. -/
def applyAdds (l : List ListItem) (reqs : List AddReq) : List ListItem :=
  reqs.foldl
    (fun acc r => addListItem acc r.freshId r.item_name r.quantity r.unit r.category r.added_via)
    l

/-- Spec §3 invariant: at most one list entry per distinct normalized
item-name key. -/
def AtMostOne (l : List ListItem) : Prop :=
  ∀ k, keyCount k l ≤ 1

/-- Spec §3 invariant: every entry's quantity is a positive integer. -/
def AllPos (l : List ListItem) : Prop :=
  ∀ it ∈ l, 1 ≤ it.quantity

theorem keyCount_countP (name : String) (l : List ListItem) :
    keyCount (normKey name) l = l.countP (keyMatchB name) := rfl

theorem addListItem_keyCount_existing {l : List ListItem} {name : String}
    (h : l.countP (keyMatchB name) ≠ 0) (freshId qty : Nat) (unit category : String)
    (via : AddedVia) (k : String) :
    keyCount k (addListItem l freshId name qty unit category via) = keyCount k l := by
  induction l with
  | nil => simp at h
  | cons it rest ih =>
    by_cases hm : keyMatchB name it
    · simp [addListItem, hm, keyCount, List.countP_cons]
    · rw [List.countP_cons] at h
      simp only [hm, if_false, Nat.add_zero] at h
      simp [addListItem, hm, keyCount, List.countP_cons]
      have := ih h
      simp only [keyCount] at this
      omega

theorem addListItem_keyCount_fresh {l : List ListItem} {name : String}
    (h : l.countP (keyMatchB name) = 0) (freshId qty : Nat) (unit category : String)
    (via : AddedVia) (k : String) :
    keyCount k (addListItem l freshId name qty unit category via)
      = keyCount k l + (if normKey name == k then 1 else 0) := by
  induction l with
  | nil =>
    simp [addListItem, keyCount, List.countP_cons]
  | cons it rest ih =>
    rw [List.countP_cons] at h
    have hm : keyMatchB name it = false := by
      by_contra hc
      simp only [Bool.not_eq_false] at hc
      simp [hc] at h
    have hrest : rest.countP (keyMatchB name) = 0 := by
      simp only [hm, if_false] at h
      omega
    simp only [addListItem, hm, Bool.false_eq_true, if_false, keyCount, List.countP_cons]
    have := ih hrest
    simp only [keyCount] at this
    omega

theorem addListItem_filter_fresh {l : List ListItem} {name : String}
    (h : l.countP (keyMatchB name) = 0) (freshId qty : Nat) (unit category : String)
    (via : AddedVia) :
    (addListItem l freshId name qty unit category via).filter (keyMatchB name)
      = [⟨freshId, name, qty, unit, category, false, via⟩] := by
  induction l with
  | nil =>
    simp [addListItem, List.filter, keyMatchB]
  | cons it rest ih =>
    rw [List.countP_cons] at h
    have hm : keyMatchB name it = false := by
      by_contra hc
      simp only [Bool.not_eq_false] at hc
      simp [hc] at h
    have hrest : rest.countP (keyMatchB name) = 0 := by
      simp only [hm, if_false] at h
      omega
    simp [addListItem, hm, List.filter_cons, ih hrest]

theorem addListItem_filter_existing {l : List ListItem} {name : String}
    {e : ListItem} (h : l.filter (keyMatchB name) = [e]) (freshId qty : Nat)
    (unit category : String) (via : AddedVia) :
    (addListItem l freshId name qty unit category via).filter (keyMatchB name)
      = [{ e with quantity := e.quantity + qty,
                  unit := if e.unit = "" then unit else e.unit }] := by
  induction l with
  | nil => simp at h
  | cons it rest ih =>
    by_cases hm : keyMatchB name it
    · rw [List.filter_cons_of_pos hm] at h
      obtain ⟨hit, hrest⟩ := List.cons_eq_cons.mp h
      subst hit
      have hupd : keyMatchB name
          { it with quantity := it.quantity + qty,
                    unit := if it.unit = "" then unit else it.unit } = true := by
        simpa [keyMatchB] using hm
      have hstep : addListItem (it :: rest) freshId name qty unit category via
          = { it with quantity := it.quantity + qty,
                      unit := if it.unit = "" then unit else it.unit } :: rest := by
        simp [addListItem, hm]
      rw [hstep, List.filter_cons_of_pos hupd, hrest]
    · rw [List.filter_cons_of_neg (by simp [hm])] at h
      simp [addListItem, hm, List.filter_cons_of_neg, ih h]

theorem addListItem_atMostOne {l : List ListItem} (h : AtMostOne l)
    (freshId : Nat) (name : String) (qty : Nat) (unit category : String)
    (via : AddedVia) :
    AtMostOne (addListItem l freshId name qty unit category via) := by
  by_cases h0 : l.countP (keyMatchB name) = 0
  · intro k
    rw [addListItem_keyCount_fresh h0]
    by_cases hk : (normKey name == k) = true
    · rw [if_pos hk]
      have hkey : k = normKey name := (beq_iff_eq.mp hk).symm
      have hz : keyCount k l = 0 := by
        rw [hkey, keyCount_countP, h0]
      omega
    · rw [if_neg hk]
      simpa using h k
  · intro k
    rw [addListItem_keyCount_existing h0]
    exact h k

theorem applyAdds_atMostOne {l : List ListItem} (h : AtMostOne l)
    (reqs : List AddReq) : AtMostOne (applyAdds l reqs) := by
  induction reqs generalizing l with
  | nil => exact h
  | cons r rs ih =>
    exact ih (addListItem_atMostOne h r.freshId r.item_name r.quantity r.unit r.category
      r.added_via)

/-- C1: adding the same normalized item twice, with quantities 2 then 3,
onto a list that does not yet hold that key yields exactly one entry for
the key, with quantity 5 (`add_item` duplicate-merge, spec §4.3); and
any sequence of adds preserves the at-most-one-entry-per-key invariant
(spec §3). -/
theorem addItem_dup_merge (l : List ListItem) (name : String)
    (i1 i2 : Nat) (u1 c1 u2 c2 : String) (v1 v2 : AddedVia)
    (h : keyCount (normKey name) l = 0) :
    (((addListItem (addListItem l i1 name 2 u1 c1 v1) i2 name 3 u2 c2 v2).filter
        (keyMatchB name)).map (fun it => it.quantity) = [5] ∧
      keyCount (normKey name)
        (addListItem (addListItem l i1 name 2 u1 c1 v1) i2 name 3 u2 c2 v2) = 1) ∧
    ∀ (l₀ : List ListItem) (reqs : List AddReq),
      AtMostOne l₀ → AtMostOne (applyAdds l₀ reqs) := by
  rw [keyCount_countP] at h
  have h1 : (addListItem l i1 name 2 u1 c1 v1).filter (keyMatchB name)
      = [⟨i1, name, 2, u1, c1, false, v1⟩] := addListItem_filter_fresh h i1 2 u1 c1 v1
  have h2 := addListItem_filter_existing h1 i2 3 u2 c2 v2
  refine ⟨⟨?_, ?_⟩, fun l₀ reqs h₀ => applyAdds_atMostOne h₀ reqs⟩
  · rw [h2]
    rfl
  · rw [keyCount_countP, List.countP_eq_length_filter, h2]
    rfl

/-- C1 witness: concrete duplicate add of "milk" (quantities 2 then 3)
onto the empty list. -/
theorem addItem_dup_merge_witness :
    keyCount (normKey "milk") ([] : List ListItem) = 0 ∧
    ((addListItem (addListItem [] 1 "milk" 2 "" "dairy" .manual) 2 "milk" 3 "" "dairy"
        .manual).filter (keyMatchB "milk")).map (fun it => it.quantity) = [5] :=
  ⟨rfl,
   (addItem_dup_merge [] "milk" 1 2 "" "dairy" "" "dairy" .manual .manual rfl).1.1⟩

/-- Modelled from the spec: `remove_item` of the List Action Executor
(§4.3, `backend/services/list_manager.py`, absent from the source
tree).  A voice "remove" without explicit amount removes the whole
matching entry; when no list entry matches the requested item the result
is `no_change` with a clarifying message and the list is returned
untouched. -/
def removeListItem (l : List ListItem) (name : String) : ActionResult × List ListItem :=
  if l.any (keyMatchB name) then
    (⟨.success, some ("Removed " ++ name)⟩, l.filter (fun it => !(keyMatchB name it)))
  else
    (⟨.no_change, some ("Could not find " ++ name ++ " on your list")⟩, l)

/-- C4: removing an item that is not present on the list returns
`no_change` and leaves the list exactly as it was — same entries, same
count (spec §4.3 and §8). -/
theorem removeItem_absent (l : List ListItem) (name : String)
    (h : ∀ it ∈ l, keyMatchB name it = false) :
    (removeListItem l name).1.status = .no_change ∧
    (removeListItem l name).2 = l ∧
    (removeListItem l name).2.length = l.length := by
  have hany : l.any (keyMatchB name) = false := by
    rw [List.any_eq_false]
    intro x hx
    simp [h x hx]
  simp [removeListItem, hany]

/-- C4 witness: removing "pasta" from a list holding only "bread". -/
theorem removeItem_absent_witness :
    (removeListItem [⟨1, "bread", 2, "", "bakery", false, .manual⟩] "pasta").1.status
      = .no_change ∧
    (removeListItem [⟨1, "bread", 2, "", "bakery", false, .manual⟩] "pasta").2
      = [⟨1, "bread", 2, "", "bakery", false, .manual⟩] :=
  ⟨(removeItem_absent _ "pasta" (by decide)).1,
   (removeItem_absent _ "pasta" (by decide)).2.1⟩

/-- Model of `handleIncrement` from `frontend/src/components/list/ListItem.tsx`
lines 17–19 together with the optimistic update of `updateItem`
(`useShoppingList.ts` lines 129–146): the entry rendered with `itemId`
is patched to `quantity + 1`. -/
def incrementItem (l : List ListItem) (itemId : Nat) : List ListItem :=
  match l.find? (fun it => it.id == itemId) with
  | none => l
  | some it =>
    l.map (fun j => if j.id == itemId then { j with quantity := it.quantity + 1 } else j)

/-- Model of `handleDecrement` from `frontend/src/components/list/ListItem.tsx`
lines 21–27: at quantity ≤ 1 the entry is removed (via `removeItem`'s
optimistic filter, `useShoppingList.ts` lines 170–181), otherwise it is
patched to `quantity - 1`. -/
def decrementItem (l : List ListItem) (itemId : Nat) : List ListItem :=
  match l.find? (fun it => it.id == itemId) with
  | none => l
  | some it =>
    if it.quantity ≤ 1 then l.filter (fun j => !(j.id == itemId))
    else l.map (fun j => if j.id == itemId then { j with quantity := it.quantity - 1 } else j)

/-- Modelled from the spec: `modify_item` of the List Action Executor
(§4.3, `backend/services/list_manager.py`, absent from the source
tree).  Updates the quantity of the entry matched by name; per spec §3 a
quantity reaching 0 triggers removal of the entry. -/
def modifyListItem (l : List ListItem) (name : String) (q : Nat) : List ListItem :=
  if q = 0 then l.filter (fun it => !(keyMatchB name it))
  else l.map (fun it => if keyMatchB name it then { it with quantity := q } else it)

/-- C5: every list operation preserves the quantity ≥ 1 invariant, and a
decrement that would reach 0 removes the entry entirely instead of
storing quantity 0. -/
theorem quantity_invariant :
    (∀ l freshId name qty unit category via, AllPos l → 1 ≤ qty →
      AllPos (addListItem l freshId name qty unit category via)) ∧
    (∀ l itemId, AllPos l → AllPos (incrementItem l itemId)) ∧
    (∀ l itemId, AllPos l → AllPos (decrementItem l itemId)) ∧
    (∀ l name q, AllPos l → AllPos (modifyListItem l name q)) ∧
    (∀ l itemId it, l.find? (fun j => j.id == itemId) = some it → it.quantity ≤ 1 →
      decrementItem l itemId = l.filter (fun j => !(j.id == itemId))) := by
  refine ⟨?_, ?_, ?_, ?_, ?_⟩
  · intro l freshId name qty unit category via hpos hq
    induction l with
    | nil =>
      intro it hit
      simp only [addListItem, List.mem_singleton] at hit
      subst hit
      exact hq
    | cons hd rest ih =>
      intro it hit
      by_cases hm : keyMatchB name hd
      · simp only [addListItem, hm, if_true, List.mem_cons] at hit
        rcases hit with hit | hit
        · subst hit
          have := hpos hd (by simp)
          simp only []
          omega
        · exact hpos it (by simp [hit])
      · simp only [addListItem, hm, Bool.false_eq_true, if_false, List.mem_cons] at hit
        rcases hit with hit | hit
        · subst hit
          exact hpos it (by simp)
        · exact ih (fun j hj => hpos j (by simp [hj])) it hit
  · intro l itemId hpos
    rw [incrementItem]
    cases hf : l.find? (fun it => it.id == itemId) with
    | none => exact hpos
    | some it =>
      intro j hj
      rw [List.mem_map] at hj
      obtain ⟨j₀, hj₀, hje⟩ := hj
      by_cases hid : (j₀.id == itemId) = true
      · subst hje
        simp [hid]
      · subst hje
        simp only [hid, if_false]
        exact hpos j₀ hj₀
  · intro l itemId hpos
    rw [decrementItem]
    cases hf : l.find? (fun it => it.id == itemId) with
    | none => exact hpos
    | some it =>
      by_cases hq : it.quantity ≤ 1
      · simp only [hq, if_true]
        intro j hj
        exact hpos j (List.mem_of_mem_filter hj)
      · simp only [hq, if_false]
        intro j hj
        rw [List.mem_map] at hj
        obtain ⟨j₀, hj₀, hje⟩ := hj
        by_cases hid : (j₀.id == itemId) = true
        · subst hje
          simp only [hid, if_true]
          omega
        · subst hje
          simp only [hid, if_false]
          exact hpos j₀ hj₀
  · intro l name q hpos
    rw [modifyListItem]
    by_cases hq : q = 0
    · simp only [hq, if_true]
      intro j hj
      exact hpos j (List.mem_of_mem_filter hj)
    · simp only [hq, if_false]
      intro j hj
      rw [List.mem_map] at hj
      obtain ⟨j₀, hj₀, hje⟩ := hj
      by_cases hm : keyMatchB name j₀
      · subst hje
        simp only [hm, if_true]
        omega
      · subst hje
        simp only [hm, Bool.false_eq_true, if_false]
        exact hpos j₀ hj₀
  · intro l itemId it hf hq
    rw [decrementItem, hf]
    simp [hq]

/-- C5 witness: the invariant holds after a concrete add and after a
decrement at quantity 1, which drops the entry. -/
theorem quantity_invariant_witness :
    AllPos (addListItem [⟨1, "milk", 1, "", "dairy", false, .manual⟩] 2 "eggs" 12 ""
      "dairy" .voice) ∧
    decrementItem [⟨1, "milk", 1, "", "dairy", false, .manual⟩] 1
      = [⟨1, "milk", 1, "", "dairy", false, .manual⟩].filter (fun j => !(j.id == 1)) :=
  ⟨quantity_invariant.1 [⟨1, "milk", 1, "", "dairy", false, .manual⟩] 2 "eggs" 12 ""
      "dairy" .voice (by simp [AllPos]) (by decide),
   quantity_invariant.2.2.2.2 [⟨1, "milk", 1, "", "dairy", false, .manual⟩] 1
      ⟨1, "milk", 1, "", "dairy", false, .manual⟩ (by decide) (by decide)⟩

/-! ## Intent Router (hybrid extraction)

`backend/nlp/pipeline.py` is not part of the frontend source tree; the
router is modelled from spec §4.1.  The two extractors are black boxes:
the fast extractor's output is the `fast` argument, the fallback's
outcome is an `Option ParsedCommand` (`none` = network/timeout/malformed
failure).  The returned `Bool` records whether the fallback extractor
was invoked at all.  The spec's `method=fast` tag is the source's
`"spacy"`, `method=fallback` is `"llm_fallback"` (`types/index.ts`
lines 56–66). -/

/-- The configurable confidence threshold, default 0.85
(`NLP_CONFIDENCE_THRESHOLD` in the repository's environment). -/
def NLP_CONFIDENCE_THRESHOLD : ℚ := 85 / 100

/-- Modelled from the spec: `interpret` of the Intent Router (§4.1,
`backend/nlp/pipeline.py`, absent from the source tree).  Run the fast
extractor first; at `confidence ≥ threshold` return its result tagged
with the fast method without consulting the fallback; below the
threshold invoke the fallback and return its result (with its own
confidence) tagged with the fallback method, degrading to the fast
result when the fallback fails. -/
def interpret (threshold : ℚ) (fast : ParsedCommand)
    (fallbackResult : Option ParsedCommand) : ParsedCommand × Bool :=
  if threshold ≤ fast.confidence then
    ({ fast with method := .spacy }, false)
  else
    match fallbackResult with
    | some r => ({ r with method := .llm_fallback }, true)
    | none => ({ fast with method := .spacy }, true)

/-- C2: whenever the fast extractor's confidence reaches the threshold
the router returns the fast result tagged with the fast method and never
invokes the fallback (the invocation flag is `false`); only below the
threshold is the fallback invoked, and a successful fallback result is
returned tagged with the fallback method, carrying the fallback's own
confidence. -/
theorem interpret_confidence_gate (threshold : ℚ) (fast : ParsedCommand)
    (fallbackResult : Option ParsedCommand) :
    (threshold ≤ fast.confidence →
      interpret threshold fast fallbackResult = ({ fast with method := .spacy }, false)) ∧
    (fast.confidence < threshold → ∀ r, fallbackResult = some r →
      interpret threshold fast fallbackResult = ({ r with method := .llm_fallback }, true) ∧
      (interpret threshold fast fallbackResult).1.confidence = r.confidence) := by
  constructor
  · intro h
    rw [interpret.eq_def, if_pos h]
  · intro h r hr
    rw [interpret.eq_def, if_neg (not_le.mpr h), hr]
    exact ⟨rfl, rfl⟩

/-- Concrete high-confidence fast result for the C2 witness. -/
def pcFast : ParsedCommand :=
  ⟨"add_item", some "eggs", some 12, none, none, none, none, 9 / 10, .spacy⟩

/-- Concrete low-confidence fast result for the C2 witness. -/
def pcLow : ParsedCommand :=
  ⟨"unknown", none, none, none, none, none, none, 2 / 10, .spacy⟩

/-- Concrete fallback result for the C2 witness. -/
def pcFb : ParsedCommand :=
  ⟨"add_item", some "sugar", some 1, none, none, none, none, 8 / 10, .llm_fallback⟩

/-- C2 witness: at the default threshold 0.85 the 0.9-confidence fast
result short-circuits (fallback not invoked), and the 0.2-confidence
fast result routes to the fallback. -/
theorem interpret_confidence_gate_witness :
    interpret NLP_CONFIDENCE_THRESHOLD pcFast none = ({ pcFast with method := .spacy }, false) ∧
    interpret NLP_CONFIDENCE_THRESHOLD pcLow (some pcFb)
      = ({ pcFb with method := .llm_fallback }, true) :=
  ⟨(interpret_confidence_gate NLP_CONFIDENCE_THRESHOLD pcFast none).1
      (by norm_num [NLP_CONFIDENCE_THRESHOLD, pcFast]),
   ((interpret_confidence_gate NLP_CONFIDENCE_THRESHOLD pcLow (some pcFb)).2
      (by norm_num [NLP_CONFIDENCE_THRESHOLD, pcLow]) pcFb rfl).1⟩

/-! ## Recommendation merge

`backend/recommendations/engine.py` is not part of the frontend source
tree; the merge policy is modelled from spec §4.4.  Each source is an
already-ranked list of item names; `activeListItemKeys` is the set
(list) of normalized keys on the active list. -/

/-- Keep the first occurrence of each normalized key, dropping later
duplicates; `seen` holds the keys already emitted. -/
def dedupByKey (seen : List String) : List String → List String
  | [] => []
  | x :: xs =>
    if normKey x ∈ seen then dedupByKey seen xs
    else x :: dedupByKey (normKey x :: seen) xs

/-- Modelled from the spec: the merge policy of the Recommendation
Aggregator (§4.4, `backend/recommendations/engine.py`, absent from the
source tree).  Cap each source's contribution before the merge,
concatenate per-source ranked lists preserving source order, drop items
whose normalized key is already on the active list, then deduplicate
across sources keeping the first (highest-ranked) occurrence. -/
def mergeSuggestions (cap : Nat) (sources : List (List String))
    (activeKeys : List String) : List String :=
  dedupByKey []
    (((sources.map (List.take cap)).flatten).filter
      (fun x => !(activeKeys.contains (normKey x))))

theorem dedupByKey_sublist (seen : List String) (l : List String) :
    (dedupByKey seen l).Sublist l := by
  induction l generalizing seen with
  | nil => simp [dedupByKey]
  | cons x xs ih =>
    rw [dedupByKey]
    split
    · exact (ih seen).trans (List.sublist_cons_self x xs)
    · exact (ih (normKey x :: seen)).cons₂ x

theorem dedupByKey_not_seen (seen : List String) (l : List String) :
    ∀ x ∈ dedupByKey seen l, normKey x ∉ seen := by
  induction l generalizing seen with
  | nil => simp [dedupByKey]
  | cons y ys ih =>
    rw [dedupByKey]
    split
    · exact ih seen
    · rename_i hy
      intro x hx
      rcases List.mem_cons.mp hx with hx | hx
      · exact hx ▸ hy
      · have := ih (normKey y :: seen) x hx
        exact fun hc => this (List.mem_cons_of_mem _ hc)

theorem dedupByKey_nodup (seen : List String) (l : List String) :
    ((dedupByKey seen l).map normKey).Nodup := by
  induction l generalizing seen with
  | nil => simp [dedupByKey]
  | cons y ys ih =>
    rw [dedupByKey]
    split
    · exact ih seen
    · rw [List.map_cons, List.nodup_cons]
      refine ⟨?_, ih (normKey y :: seen)⟩
      intro hc
      rw [List.mem_map] at hc
      obtain ⟨x, hx, hxk⟩ := hc
      exact dedupByKey_not_seen _ _ x hx (by rw [hxk]; exact List.mem_cons_self _ _)

/-- C3: the merged suggestion list contains no item whose normalized key
is on the active list, contains no cross-source duplicate (first
occurrence kept), and is a sublist of the concatenation of the
cap-truncated per-source lists — hence each source contributes at most
`cap` entries and per-source ranked order is preserved. -/
theorem mergeSuggestions_spec (cap : Nat) (sources : List (List String))
    (activeKeys : List String) :
    (∀ x ∈ mergeSuggestions cap sources activeKeys, normKey x ∉ activeKeys) ∧
    ((mergeSuggestions cap sources activeKeys).map normKey).Nodup ∧
    (mergeSuggestions cap sources activeKeys).Sublist
      ((sources.map (List.take cap)).flatten) := by
  refine ⟨?_, dedupByKey_nodup [] _, ?_⟩
  · intro x hx
    have hmem : x ∈ ((sources.map (List.take cap)).flatten).filter
        (fun x => !(activeKeys.contains (normKey x))) :=
      (dedupByKey_sublist [] _).mem hx
    have := (List.mem_filter.mp hmem).2
    simpa using this
  · exact (dedupByKey_sublist [] _).trans (List.filter_sublist _)

/-- C3 witness: concrete merge with cap 2, active key "bread"; "milk"
appears in the output and its key is not an active key. -/
theorem mergeSuggestions_spec_witness :
    normKey "milk" ∉ ["bread"] ∧
    ((mergeSuggestions 2 [["milk", "bread", "eggs"], ["milk", "jam"]] ["bread"]).map
      normKey).Nodup :=
  ⟨(mergeSuggestions_spec 2 [["milk", "bread", "eggs"], ["milk", "jam"]] ["bread"]).1
      "milk" (by decide),
   (mergeSuggestions_spec 2 [["milk", "bread", "eggs"], ["milk", "jam"]] ["bread"]).2.1⟩

/-! ## Catalog Validator

The validator lives in the backend (README §3 "Catalog Validation"),
absent from the source tree; it is modelled from spec §4.2.  The
bounded edit-distance / token-overlap scorer is an arbitrary similarity
function parameter `sim`; the similarity floor is `simFloor`.  The
user-facing cap of 6 displayed candidates is translated from
`TranscriptDisplay` (`catalogMatches.slice(0, 6)`). -/

/-- Model of `CatalogEntry` from spec §3. -/
structure CatalogEntry where
  name : String
  nameKey : String
  category : String
  commonUnits : List String
  averagePrice : Option ℚ
  popularityRank : Nat
  deriving DecidableEq, Repr

/-- Model of `ValidatedItem` from spec §3: exact/fuzzy hit, near-candidates, or
no item. -/
inductive ValidatedItem where
  | matched (e : CatalogEntry)
  | suggested (cands : List CatalogEntry)
  | unresolved
  deriving DecidableEq, Repr

/-- Candidate ordering of the fuzzy stage: higher similarity first,
`popularityRank` ascending as the tie-break (spec §4.2). -/
def suggestRank (sim : String → String → ℚ) (item : String) (a b : CatalogEntry) : Bool :=
  decide (sim item b.nameKey < sim item a.nameKey ∨
    (sim item a.nameKey = sim item b.nameKey ∧ a.popularityRank ≤ b.popularityRank))

/-- Modelled from the spec: fuzzy stage of `validate` (§4.2,
backend catalog validator, absent from the source tree): keep candidates
strictly above the similarity floor, sort by similarity with
`popularityRank` ascending as tie-break, return up to 6. -/
def fuzzyCandidates (sim : String → String → ℚ) (simFloor : ℚ) (item : String)
    (catalog : List CatalogEntry) : List CatalogEntry :=
  (List.mergeSort (catalog.filter (fun e => simFloor < sim item e.nameKey))
    (suggestRank sim item)).take 6

/-- Modelled from the spec: `validate` of the Catalog Validator (§4.2,
absent from the source tree).  No item → `Unresolved`; exact match on
the normalized key → `Matched`; otherwise up to 6 fuzzy candidates as
`Suggested`, or `Unresolved` when none clears the floor. -/
def validate (sim : String → String → ℚ) (simFloor : ℚ)
    (catalog : List CatalogEntry) (item : Option String) : ValidatedItem :=
  match item with
  | none => .unresolved
  | some s =>
    match catalog.find? (fun e => e.nameKey == normKey s) with
    | some e => .matched e
    | none =>
      match fuzzyCandidates sim simFloor (normKey s) catalog with
      | [] => .unresolved
      | c :: cs => .suggested (c :: cs)

/-- The voice overlay displays at most 6 catalog-match chips
(`frontend/src/components/voice/TranscriptDisplay.tsx`,
`catalogMatches.slice(0, 6)`). -/
def displayedCatalogMatches (ms : List SuggestionItem) : List SuggestionItem :=
  ms.take 6

theorem suggestRank_trans (sim : String → String → ℚ) (item : String) :
    ∀ a b c, suggestRank sim item a b → suggestRank sim item b c →
      suggestRank sim item a c := by
  intro a b c hab hbc
  rw [suggestRank, decide_eq_true_eq] at hab hbc ⊢
  rcases hab with h1 | ⟨e1, r1⟩ <;> rcases hbc with h2 | ⟨e2, r2⟩
  · exact Or.inl (by linarith)
  · exact Or.inl (by rw [← e2]; exact h1)
  · exact Or.inl (by rw [e1]; exact h2)
  · exact Or.inr ⟨e1.trans e2, r1.trans r2⟩

theorem suggestRank_total (sim : String → String → ℚ) (item : String) :
    ∀ a b, suggestRank sim item a b || suggestRank sim item b a := by
  intro a b
  rw [Bool.or_eq_true, suggestRank, suggestRank, decide_eq_true_eq, decide_eq_true_eq]
  rcases lt_trichotomy (sim item a.nameKey) (sim item b.nameKey) with h | h | h
  · right
    exact Or.inl h
  · rcases Nat.le_total a.popularityRank b.popularityRank with hr | hr
    · left
      exact Or.inr ⟨h, hr⟩
    · right
      exact Or.inr ⟨h.symm, hr⟩
  · left
    exact Or.inl h

/-- C6: the fuzzy stage returns at most 6 candidates, each strictly
above the similarity floor, ordered by non-increasing similarity with
`popularityRank` ascending as tie-break on ties; and the user-facing
layer displays at most 6 candidate chips. -/
theorem validator_suggestions_spec (sim : String → String → ℚ) (simFloor : ℚ)
    (item : String) (catalog : List CatalogEntry) (ms : List SuggestionItem) :
    (fuzzyCandidates sim simFloor item catalog).length ≤ 6 ∧
    (∀ e ∈ fuzzyCandidates sim simFloor item catalog, simFloor < sim item e.nameKey) ∧
    (fuzzyCandidates sim simFloor item catalog).Pairwise
      (fun a b => sim item b.nameKey ≤ sim item a.nameKey ∧
        (sim item a.nameKey = sim item b.nameKey → a.popularityRank ≤ b.popularityRank)) ∧
    (displayedCatalogMatches ms).length ≤ 6 := by
  refine ⟨?_, ?_, ?_, ?_⟩
  · rw [fuzzyCandidates, List.length_take]
    exact Nat.min_le_left _ _
  · intro e he
    have h1 : e ∈ List.mergeSort (catalog.filter (fun x => simFloor < sim item x.nameKey))
        (suggestRank sim item) := (List.take_sublist _ _).subset he
    have h2 : e ∈ catalog.filter (fun x => simFloor < sim item x.nameKey) :=
      (List.mergeSort_perm _ _).subset h1
    have := (List.mem_filter.mp h2).2
    simpa using this
  · have hs := List.sorted_mergeSort (suggestRank_trans sim item) (suggestRank_total sim item)
      (catalog.filter (fun x => simFloor < sim item x.nameKey))
    have hp : (fuzzyCandidates sim simFloor item catalog).Pairwise
        (fun a b => suggestRank sim item a b = true) :=
      hs.sublist (List.take_sublist 6 _)
    refine hp.imp ?_
    intro a b hab
    rw [suggestRank, decide_eq_true_eq] at hab
    rcases hab with h | ⟨heq, hle⟩
    · exact ⟨le_of_lt h, fun hEq => absurd (hEq ▸ h) (lt_irrefl _)⟩
    · exact ⟨le_of_eq heq.symm, fun _ => hle⟩
  · rw [displayedCatalogMatches, List.length_take]
    exact Nat.min_le_left _ _

/-- Similarity scorer for the witnesses: 1 on equal strings, 0
otherwise. -/
def simEx : String → String → ℚ :=
  fun a b => if a = b then 1 else 0

/-- Single-entry catalog for the C6 witness. -/
def catalogEx6 : List CatalogEntry :=
  [⟨"Eggs", "eggs", "dairy", [], none, 1⟩]

/-- C6 witness: on the concrete one-entry catalog the one returned
candidate clears the floor, and a 7-element match list is displayed
truncated to 6. -/
theorem validator_suggestions_witness :
    (fuzzyCandidates simEx (1 / 2) "eggs" catalogEx6).length ≤ 6 ∧
    (1 : ℚ) / 2 < simEx "eggs" "eggs" ∧
    (displayedCatalogMatches
      [⟨"a", none⟩, ⟨"b", none⟩, ⟨"c", none⟩, ⟨"d", none⟩, ⟨"e", none⟩, ⟨"f", none⟩,
       ⟨"g", none⟩]).length ≤ 6 := by
  have hmem : (⟨"Eggs", "eggs", "dairy", [], none, 1⟩ : CatalogEntry)
      ∈ fuzzyCandidates simEx (1 / 2) "eggs" catalogEx6 := by
    have hfil : catalogEx6.filter (fun e => (1 : ℚ) / 2 < simEx "eggs" e.nameKey)
        = [⟨"Eggs", "eggs", "dairy", [], none, 1⟩] := by
      unfold catalogEx6
      rw [List.filter_cons_of_pos (by norm_num [simEx])]
      rfl
    rw [fuzzyCandidates, hfil]
    have hm : (⟨"Eggs", "eggs", "dairy", [], none, 1⟩ : CatalogEntry)
        ∈ List.mergeSort [(⟨"Eggs", "eggs", "dairy", [], none, 1⟩ : CatalogEntry)]
            (suggestRank simEx "eggs") :=
      (List.mergeSort_perm _ _).symm.subset (List.mem_cons_self _ _)
    have hlen : (List.mergeSort [(⟨"Eggs", "eggs", "dairy", [], none, 1⟩ : CatalogEntry)]
        (suggestRank simEx "eggs")).length ≤ 6 := by
      rw [(List.mergeSort_perm _ _).length_eq]
      simp
    rw [List.take_of_length_le hlen]
    exact hm
  refine ⟨(validator_suggestions_spec simEx (1 / 2) "eggs" catalogEx6 []).1, ?_, ?_⟩
  · have h := (validator_suggestions_spec simEx (1 / 2) "eggs" catalogEx6 []).2.1
      _ hmem
    simpa using h
  · exact (validator_suggestions_spec simEx (1 / 2) "eggs" catalogEx6
      [⟨"a", none⟩, ⟨"b", none⟩, ⟨"c", none⟩, ⟨"d", none⟩, ⟨"e", none⟩, ⟨"f", none⟩,
       ⟨"g", none⟩]).2.2.2

theorem find?_key_eq {catalog : List CatalogEntry} {e : CatalogEntry}
    (hnd : (catalog.map (fun x => x.nameKey)).Nodup) (he : e ∈ catalog) :
    catalog.find? (fun x => x.nameKey == e.nameKey) = some e := by
  induction catalog with
  | nil => cases he
  | cons hd tl ih =>
    rcases List.mem_cons.mp he with he | he
    · subst he
      exact List.find?_cons_of_pos _ (by simp)
    · rw [List.map_cons, List.nodup_cons] at hnd
      have hne : hd.nameKey ≠ e.nameKey := by
        intro hc
        exact hnd.1 (hc ▸ List.mem_map_of_mem (fun x => x.nameKey) he)
      rw [List.find?_cons_of_neg _ (by simpa using hne)]
      exact ih hnd.2 he

/-- C7: `validate` on an item string already equal to a catalog entry's
normalized key returns `Matched` with exactly that entry — never
`Suggested` or `Unresolved` (spec §4.2(a), §8 round-trip property).
Hypotheses: catalog keys are unique (spec §3) and already normalized
(spec §3: `nameKey` is the normalized lookup key). -/
theorem validate_exact (sim : String → String → ℚ) (simFloor : ℚ)
    (catalog : List CatalogEntry) (e : CatalogEntry)
    (hnd : (catalog.map (fun x => x.nameKey)).Nodup)
    (hnorm : normKey e.nameKey = e.nameKey)
    (he : e ∈ catalog) :
    validate sim simFloor catalog (some e.nameKey) = .matched e := by
  simp only [validate, hnorm, find?_key_eq hnd he]

/-- Two-entry catalog for the C7 witness. -/
def catalogEx7 : List CatalogEntry :=
  [⟨"Eggs", "eggs", "dairy", [], none, 1⟩, ⟨"Milk", "milk", "dairy", [], none, 2⟩]

/-- C7 witness: validating the exact key "milk" on the concrete catalog
yields `Matched` with the milk entry. -/
theorem validate_exact_witness :
    validate simEx (1 / 2) catalogEx7 (some "milk")
      = .matched ⟨"Milk", "milk", "dairy", [], none, 2⟩ :=
  validate_exact simEx (1 / 2) catalogEx7 ⟨"Milk", "milk", "dairy", [], none, 2⟩
    (by decide) (by decide) (by decide)

end VoiceShop
